import Mathlib

set_option maxHeartbeats 1000000
set_option maxRecDepth 8192

/- Shallow embedding of the code-similarity retrieval engine in
   src/server/services/embeddings.ts (the file contains three successive
   variants of the EmbeddingsService class).  JS strings are modelled as
   lists of characters, the vectorizer's numbers as exact rationals, and
   similarity scores as real numbers. -/

namespace Embeddings

/-- JS `s.split(sep)` for a one-character separator `sep`:
`"".split('\n') = [""]`, and a trailing separator yields a trailing
empty fragment. -/
def jsSplit (sep : Char) : List Char → List (List Char)
  | [] => [[]]
  | c :: cs =>
    if c = sep then [] :: jsSplit sep cs
    else
      match jsSplit sep cs with
      | [] => [[c]]
      | l :: ls => (c :: l) :: ls

/-- JS `arr.join(sep)` for a one-character separator. -/
def jsJoin (sep : Char) : List (List Char) → List Char
  | [] => []
  | [l] => l
  | l :: l₂ :: ls => l ++ sep :: jsJoin sep (l₂ :: ls)

/-- A chunk of an indexed file (interface `CodeChunk` in embeddings.ts). -/
structure CodeChunk where
  fileId : Int
  content : List Char
  startLine : Nat
  endLine : Nat
deriving DecidableEq, Repr

/-- `chunkSize` constant inside `splitIntoChunks` (50 lines). -/
def chunkSize : Nat := 50

/-- The loop of `splitIntoChunks`: starting at index `i`, take
`lines.slice(i, i + chunkSize)`, record its 1-based line range, and continue
at `i + chunkSize` while `i < lines.length`. -/
def chunkFrom (fileId : Int) (lines : List (List Char)) (i : Nat) : List CodeChunk :=
  if i < lines.length then
    { fileId := fileId
      content := jsJoin '\n' ((lines.drop i).take chunkSize)
      startLine := i + 1
      endLine := min (i + chunkSize) lines.length } :: chunkFrom fileId lines (i + chunkSize)
  else []
termination_by lines.length - i
decreasing_by simp [chunkSize]; omega

/-- `splitIntoChunks(code, fileId)` from embeddings.ts: split `code` on
newlines and group the resulting lines into consecutive windows of
`chunkSize` lines. -/
def splitIntoChunks (code : List Char) (fileId : Int) : List CodeChunk :=
  chunkFrom fileId (jsSplit '\n' code) 0

/-- JS word characters: regex `\w` is `[A-Za-z0-9_]` (ASCII). -/
def isWordChar (c : Char) : Bool := c.isAlpha || c.isDigit || c = '_'

/-- JS `text.toLowerCase()` on ASCII text. -/
def jsToLower (s : List Char) : List Char := s.map Char.toLower

/-- JS `s.split(/\W+/)`: split at maximal runs of non-word characters.
A leading (resp. trailing) separator run contributes a leading (resp.
trailing) empty token, and `"".split(/\W+/) = [""]`. -/
def splitNonWord : List Char → List (List Char)
  | [] => [[]]
  | [c] => if isWordChar c then [[c]] else [[], []]
  | c :: c₂ :: cs =>
    let r := splitNonWord (c₂ :: cs)
    if isWordChar c then
      match r with
      | [] => [[c]]
      | t :: ts => (c :: t) :: ts
    else
      if isWordChar c₂ then [] :: r else r

/-- One step of `freq.set(word, (freq.get(word) || 0) + 1)` on a JS `Map`
modelled as an insertion-ordered association list. -/
def bump : List (List Char × Nat) → List Char → List (List Char × Nat)
  | [], w => [(w, 1)]
  | (k, v) :: rest, w =>
    if k = w then (k, v + 1) :: rest else (k, v) :: bump rest w

/-- The `freq` map of `generateSimpleEmbedding` after the `forEach` loop:
token → occurrence count, in first-seen order. -/
def buildFreq (ws : List (List Char)) : List (List Char × Nat) := ws.foldl bump []

/-- The `dimension` field of `EmbeddingsService` (3072). -/
def dimension : Nat := 3072

/-- `generateSimpleEmbedding(text)` with the service dimension as a
parameter: lower-case, split on `/\W+/`, count token frequencies, divide
each count by their total, then pad with `Array(d - normalized.length)`
zeros and `.slice(0, d)`.  `none` models the `RangeError` JS throws in
`Array(d - normalized.length)` when the distinct-token count exceeds `d`
(so the `.slice` truncation is unreachable). -/
def generateSimpleEmbeddingD (d : Nat) (text : List Char) : Option (List ℚ) :=
  let words := splitNonWord (jsToLower text)
  let freq := buildFreq words
  let values : List ℚ := freq.map (fun p => (p.2 : ℚ))
  let sum : ℚ := values.foldl (· + ·) 0
  let normalized := values.map (fun v => v / sum)
  if normalized.length ≤ d then
    some ((normalized ++ List.replicate (d - normalized.length) 0).take d)
  else none

/-- `generateSimpleEmbedding` at the service's dimension 3072. -/
def generateSimpleEmbedding (text : List Char) : Option (List ℚ) :=
  generateSimpleEmbeddingD dimension text

/-- `calculateSimilarity(v1, v2)` of variant 1 (embeddings.ts:86-98): one
loop over paired entries accumulates the dot product and both squared
norms, and the denominator `sqrt(norm1) * sqrt(norm2) || 1` is floored at 1
when it is zero.  (The loop runs over `v1`'s indices; all uses compare
equal-length vectors, modelled by `zip`.) -/
noncomputable def calculateSimilarity (v1 v2 : List ℝ) : ℝ :=
  let dotProduct := ((v1.zip v2).map (fun p => p.1 * p.2)).sum
  let norm1 := ((v1.zip v2).map (fun p => p.1 * p.1)).sum
  let norm2 := ((v1.zip v2).map (fun p => p.2 * p.2)).sum
  dotProduct /
    (if Real.sqrt norm1 * Real.sqrt norm2 = 0 then 1
     else Real.sqrt norm1 * Real.sqrt norm2)

/-- `calculateSimilarity(embedding1, embedding2)` of variant 2
(embeddings.ts:303-315), which has NO `|| 1` guard: dividing by a zero
denominator yields a non-finite JS number (NaN for a zero numerator,
±Infinity otherwise), modelled as `none`. -/
noncomputable def calculateSimilarityV2 (embedding1 embedding2 : List ℝ) : Option ℝ :=
  let dotProduct := ((embedding1.zip embedding2).map (fun p => p.1 * p.2)).sum
  let norm1 := ((embedding1.zip embedding2).map (fun p => p.1 * p.1)).sum
  let norm2 := ((embedding1.zip embedding2).map (fun p => p.2 * p.2)).sum
  if Real.sqrt norm1 * Real.sqrt norm2 = 0 then none
  else some (dotProduct / (Real.sqrt norm1 * Real.sqrt norm2))

/-- The fields of `CodeFile` (from `@shared/schema`) used by the engine. -/
structure CodeFile where
  id : Int
  content : List Char

/-- An entry of the `localChunks` array of variant 1:
`CodeChunk & { embedding?: number[] }`. -/
structure LocalChunk where
  chunk : CodeChunk
  embedding : Option (List ℚ)
deriving DecidableEq

/-- The local-storage loop of `addToIndex`: for each chunk, compute its
embedding and push `{ ...chunk, embedding }` onto `localChunks`.  If
`generateSimpleEmbedding` throws (dimension overflow), the loop stops
there; the `Bool` records whether it completed. -/
def addChunksLoop (state : List LocalChunk) : List CodeChunk → List LocalChunk × Bool
  | [] => (state, true)
  | c :: cs =>
    match generateSimpleEmbedding c.content with
    | some e => addChunksLoop (state ++ [⟨c, some e⟩]) cs
    | none => (state, false)

/-- `addToIndex(file)` in the local path (no Pinecone): split into chunks
and run the local loop; on a thrown error the catch block re-splits and
re-runs the same loop (whose own error would propagate).  Returns the
final `localChunks` state and whether the call completed without
propagating an error. -/
def addToIndex (state : List LocalChunk) (file : CodeFile) : List LocalChunk × Bool :=
  let chunks := splitIntoChunks file.content file.id
  match addChunksLoop state chunks with
  | (s1, true) => (s1, true)
  | (s1, false) => addChunksLoop s1 (splitIntoChunks file.content file.id)

/-- A result row `{ fileId, content, similarity }` of `findSimilarCode`. -/
structure SimilarResult where
  fileId : Int
  content : List Char
  similarity : ℝ

/-- The JS comparator `(a, b) => b.similarity - a.similarity`: `a` may sit
before `b` exactly when `b.similarity ≤ a.similarity`.  JS `Array.sort` is
stable, as is `List.mergeSort`. -/
noncomputable def bySimilarityDesc (a b : LocalChunk × ℝ) : Bool :=
  decide (b.2 ≤ a.2)

/-- `findSimilarCode(query, k)` of variant 1 in the local path: embed the
query (a throw is caught and yields `[]`), score every stored chunk
(`0` for a chunk without an embedding), stable-sort by descending
similarity, truncate to `k`, and project to result rows. -/
noncomputable def findSimilarCode (state : List LocalChunk) (query : List Char)
    (k : Nat) : List SimilarResult :=
  match generateSimpleEmbedding query with
  | none => []
  | some queryEmbedding =>
    let similarities := state.map (fun c =>
      (c, match c.embedding with
          | some e =>
            calculateSimilarity (queryEmbedding.map (fun x => (x : ℝ)))
              (e.map (fun x => (x : ℝ)))
          | none => 0))
    ((similarities.mergeSort bySimilarityDesc).take k).map
      (fun p =>
        { fileId := p.1.chunk.fileId
          content := p.1.chunk.content
          similarity := p.2 })

/-- `clear()`: try to delete-all on the remote backend and empty
`localChunks`; the catch block of a failed remote delete also empties
`localChunks`, so the local list is `[]` on both paths. -/
def clear (_ : List LocalChunk) (remoteDeleteFails : Bool) : List LocalChunk :=
  if remoteDeleteFails then [] else []

/-- The JS `Set` of distinct lower-cased tokens of a text
(`new Set(text.toLowerCase().split(/\W+/))`, variant 3). -/
def tokenSet (text : List Char) : Finset (List Char) :=
  (splitNonWord (jsToLower text)).toFinset

/-- The body of variant 3 `calculateSimilarity` (embeddings.ts:439-448)
as a function of the two token sets: the overlap count divided by
`sqrt(|words1| * |words2|)`, and `0` when either set is empty. -/
noncomputable def overlapScore (words1 words2 : Finset (List Char)) : ℝ :=
  let intersection := words1.filter (fun x => x ∈ words2)
  if words1.card = 0 ∨ words2.card = 0 then 0
  else (intersection.card : ℝ) / Real.sqrt ((words1.card : ℝ) * (words2.card : ℝ))

/-- Variant 3 `calculateSimilarity(text1, text2)` over raw texts. -/
noncomputable def calculateSimilarityText (text1 text2 : List Char) : ℝ :=
  overlapScore (tokenSet text1) (tokenSet text2)

theorem chunkSize_pos : 0 < chunkSize := by decide

theorem jsSplit_ne_nil (sep : Char) (s : List Char) : jsSplit sep s ≠ [] := by
  induction s with
  | nil => simp [jsSplit]
  | cons c cs ih =>
    simp only [jsSplit]
    split
    · simp
    · cases h : jsSplit sep cs with
      | nil => simp
      | cons l ls => simp

theorem jsJoin_jsSplit (sep : Char) (s : List Char) :
    jsJoin sep (jsSplit sep s) = s := by
  induction s with
  | nil => simp [jsSplit, jsJoin]
  | cons c cs ih =>
    simp only [jsSplit]
    split
    · rename_i hc
      cases h : jsSplit sep cs with
      | nil => exact absurd h (jsSplit_ne_nil sep cs)
      | cons l ls =>
        rw [h] at ih
        simp [jsJoin, ih, hc]
    · cases h : jsSplit sep cs with
      | nil => exact absurd h (jsSplit_ne_nil sep cs)
      | cons l ls =>
        rw [h] at ih
        cases ls with
        | nil => simpa [jsJoin] using congrArg (c :: ·) ih
        | cons l₂ ls₂ => simpa [jsJoin] using congrArg (c :: ·) ih

theorem jsJoin_cons_of_ne_nil (sep : Char) (l : List Char) {ls : List (List Char)}
    (h : ls ≠ []) : jsJoin sep (l :: ls) = l ++ sep :: jsJoin sep ls := by
  cases ls with
  | nil => exact absurd rfl h
  | cons l₂ ls₂ => rfl

theorem jsJoin_take_drop (sep : Char) :
    ∀ (xs : List (List Char)) (k : Nat), 0 < k → k < xs.length →
      jsJoin sep (xs.take k) ++ sep :: jsJoin sep (xs.drop k) = jsJoin sep xs := by
  intro xs
  induction xs with
  | nil => intro k _ hk; simp at hk
  | cons x xs ih =>
    intro k hk0 hklen
    match k, hk0 with
    | 1, _ =>
      have hxs : xs ≠ [] := by
        intro h; rw [h] at hklen; simp at hklen
      simp only [List.take_succ_cons, List.take_zero, List.drop_succ_cons, List.drop_zero]
      rw [jsJoin_cons_of_ne_nil sep x hxs]
      simp [jsJoin]
    | (k' + 2), _ =>
      have hk' : 0 < k' + 1 := Nat.succ_pos k'
      have hklen' : k' + 1 < xs.length := by
        simp only [List.length_cons] at hklen; omega
      have hxs : xs ≠ [] := by
        intro h; rw [h] at hklen'; simp at hklen'
      have htake : xs.take (k' + 1) ≠ [] := by
        apply List.ne_nil_of_length_pos
        rw [List.length_take]
        omega
      simp only [List.take_succ_cons, List.drop_succ_cons]
      rw [jsJoin_cons_of_ne_nil sep x htake, jsJoin_cons_of_ne_nil sep x hxs,
        List.append_assoc]
      congr 1
      simp only [List.cons_append]
      congr 1
      exact ih (k' + 1) hk' hklen'

theorem chunkFrom_join (fileId : Int) (lines : List (List Char)) (i : Nat) :
    i < lines.length →
      jsJoin '\n' ((chunkFrom fileId lines i).map CodeChunk.content)
        = jsJoin '\n' (lines.drop i) := by
  induction i using chunkFrom.induct fileId lines with
  | case1 i h ih =>
    intro _
    rw [chunkFrom, if_pos h]
    have hcs : chunkSize = 50 := rfl
    by_cases h50 : i + chunkSize < lines.length
    · have hrec := ih h50
      have hne : chunkFrom fileId lines (i + chunkSize) ≠ [] := by
        rw [chunkFrom, if_pos h50]; simp
      have hmapne : (chunkFrom fileId lines (i + chunkSize)).map CodeChunk.content ≠ [] := by
        simpa using hne
      simp only [List.map_cons]
      rw [jsJoin_cons_of_ne_nil '\n' _ hmapne, hrec]
      have hlen : chunkSize < (lines.drop i).length := by
        simp only [List.length_drop]; omega
      have hjtd := jsJoin_take_drop '\n' (lines.drop i) chunkSize chunkSize_pos hlen
      rw [List.drop_drop] at hjtd
      exact hjtd
    · have hempty : chunkFrom fileId lines (i + chunkSize) = [] := by
        rw [chunkFrom, if_neg h50]
      have htake : (lines.drop i).take chunkSize = lines.drop i := by
        apply List.take_of_length_le
        simp only [List.length_drop]
        omega
      simp [hempty, jsJoin, htake]
  | case2 i h =>
    intro h'
    exact absurd h' h

theorem chunkFrom_sum (fileId : Int) (lines : List (List Char)) (i : Nat) :
    ((chunkFrom fileId lines i).map
        (fun ch => ch.endLine - ch.startLine + 1)).sum = lines.length - i := by
  induction i using chunkFrom.induct fileId lines with
  | case1 i h ih =>
    rw [chunkFrom, if_pos h]
    have hcs : chunkSize = 50 := rfl
    simp only [List.map_cons, List.sum_cons, ih]
    omega
  | case2 i h =>
    rw [chunkFrom, if_neg h]
    simp
    omega

theorem chunkFrom_bounds (fileId : Int) (lines : List (List Char)) (i : Nat) :
    ∀ ch ∈ chunkFrom fileId lines i,
      1 ≤ ch.startLine ∧ ch.startLine ≤ ch.endLine ∧ ch.endLine ≤ lines.length ∧
        ch.endLine - ch.startLine + 1 ≤ chunkSize ∧ ch.fileId = fileId := by
  induction i using chunkFrom.induct fileId lines with
  | case1 i h ih =>
    intro ch hch
    rw [chunkFrom, if_pos h] at hch
    have hcs : chunkSize = 50 := rfl
    rcases List.mem_cons.mp hch with heq | hmem
    · subst heq
      refine ⟨?_, ?_, ?_, ?_, rfl⟩ <;> simp [hcs] <;> omega
    · exact ih ch hmem
  | case2 i h =>
    intro ch hch
    rw [chunkFrom, if_neg h] at hch
    simp at hch

theorem chunkFrom_dropLast (fileId : Int) (lines : List (List Char)) (i : Nat) :
    ∀ ch ∈ (chunkFrom fileId lines i).dropLast,
      ch.endLine - ch.startLine + 1 = chunkSize := by
  induction i using chunkFrom.induct fileId lines with
  | case1 i h ih =>
    intro ch hch
    rw [chunkFrom, if_pos h] at hch
    have hcs : chunkSize = 50 := rfl
    by_cases h50 : i + chunkSize < lines.length
    · have hne : chunkFrom fileId lines (i + chunkSize) ≠ [] := by
        rw [chunkFrom, if_pos h50]; simp
      rw [List.dropLast_cons_of_ne_nil hne] at hch
      rcases List.mem_cons.mp hch with heq | hmem
      · subst heq
        simp only
        omega
      · exact ih ch hmem
    · have hempty : chunkFrom fileId lines (i + chunkSize) = [] := by
        rw [chunkFrom, if_neg h50]
      rw [hempty] at hch
      simp at hch
  | case2 i h =>
    intro ch hch
    rw [chunkFrom, if_neg h] at hch
    simp at hch

end Embeddings

open Embeddings

/-- Claim C1: `splitIntoChunks` partitions the input text's lines into
consecutive chunks of at most `chunkSize` = 50 lines: joining the chunks'
contents with newlines reproduces the input exactly; `startLine`/`endLine`
are 1-based with `endLine - startLine + 1 ≤ 50`; every chunk except
possibly the last spans exactly 50 lines; and the spans sum to the total
line count of the input. -/
theorem splitIntoChunks_partition (code : List Char) (fileId : Int) :
    jsJoin '\n' ((splitIntoChunks code fileId).map CodeChunk.content) = code ∧
    (∀ ch ∈ splitIntoChunks code fileId,
      1 ≤ ch.startLine ∧ ch.startLine ≤ ch.endLine ∧
        ch.endLine - ch.startLine + 1 ≤ chunkSize) ∧
    (∀ ch ∈ (splitIntoChunks code fileId).dropLast,
      ch.endLine - ch.startLine + 1 = chunkSize) ∧
    ((splitIntoChunks code fileId).map
      (fun ch => ch.endLine - ch.startLine + 1)).sum = (jsSplit '\n' code).length := by
  have hpos : 0 < (jsSplit '\n' code).length :=
    List.length_pos.mpr (jsSplit_ne_nil '\n' code)
  refine ⟨?_, ?_, ?_, ?_⟩
  · have h := chunkFrom_join fileId (jsSplit '\n' code) 0 hpos
    simpa [splitIntoChunks, jsJoin_jsSplit] using h
  · intro ch hch
    have h := chunkFrom_bounds fileId (jsSplit '\n' code) 0 ch hch
    exact ⟨h.1, h.2.1, h.2.2.2.1⟩
  · exact chunkFrom_dropLast fileId (jsSplit '\n' code) 0
  · have h := chunkFrom_sum fileId (jsSplit '\n' code) 0
    simpa [splitIntoChunks] using h

/-- Witness for C1 at the concrete input `"a\nb"` (file id 1), which
produces the single chunk `⟨1, "a\nb", 1, 2⟩`. -/
theorem splitIntoChunks_partition_witness :
    1 ≤ ({ fileId := 1, content := ['a', '\n', 'b'], startLine := 1,
            endLine := 2 } : CodeChunk).startLine ∧
    ({ fileId := 1, content := ['a', '\n', 'b'], startLine := 1,
        endLine := 2 } : CodeChunk).startLine ≤
      ({ fileId := 1, content := ['a', '\n', 'b'], startLine := 1,
          endLine := 2 } : CodeChunk).endLine ∧
    ({ fileId := 1, content := ['a', '\n', 'b'], startLine := 1,
        endLine := 2 } : CodeChunk).endLine -
      ({ fileId := 1, content := ['a', '\n', 'b'], startLine := 1,
          endLine := 2 } : CodeChunk).startLine + 1 ≤ chunkSize :=
  (splitIntoChunks_partition ['a', '\n', 'b'] 1).2.1 _ (by
    rw [splitIntoChunks, show jsSplit '\n' ['a', '\n', 'b'] = [['a'], ['b']] from rfl,
      chunkFrom, if_pos (by decide), chunkFrom, if_neg (by decide)]
    decide)

/-- Claim C4 (counterexample): `splitIntoChunks` applied to the empty string
does NOT return an empty list of chunks — JS `"".split('\n')` yields `[""]`,
so the loop runs once. -/
theorem splitIntoChunks_empty_ne_nil : splitIntoChunks [] 0 ≠ [] := by
  rw [splitIntoChunks, show jsSplit '\n' [] = [[]] from rfl,
    chunkFrom, if_pos (by decide), chunkFrom, if_neg (by decide)]
  decide

/-- Claim C4 (amended): `splitIntoChunks` applied to the empty string returns
exactly one chunk, with empty content and line range 1–1. -/
theorem splitIntoChunks_empty :
    splitIntoChunks [] 0 =
      [{ fileId := 0, content := [], startLine := 1, endLine := 1 }] := by
  rw [splitIntoChunks, show jsSplit '\n' [] = [[]] from rfl,
    chunkFrom, if_pos (by decide), chunkFrom, if_neg (by decide)]
  decide

theorem splitNonWord_ne_nil : (s : List Char) → splitNonWord s ≠ []
  | [] => by simp [splitNonWord]
  | [c] => by
    simp only [splitNonWord]
    split <;> simp
  | c :: c₂ :: cs => by
    have ih := splitNonWord_ne_nil (c₂ :: cs)
    simp only [splitNonWord]
    split
    · cases h : splitNonWord (c₂ :: cs) with
      | nil => simp
      | cons t ts => simp
    · split
      · simp
      · exact ih

theorem bump_ne_nil (m : List (List Char × Nat)) (w : List Char) : bump m w ≠ [] := by
  cases m with
  | nil => simp [bump]
  | cons p rest =>
    obtain ⟨k, v⟩ := p
    simp only [bump]
    split <;> simp

theorem foldl_bump_ne_nil (ws : List (List Char)) (m : List (List Char × Nat))
    (hm : m ≠ []) : ws.foldl bump m ≠ [] := by
  induction ws generalizing m with
  | nil => simpa using hm
  | cons w ws ih => exact ih (bump m w) (bump_ne_nil m w)

theorem buildFreq_ne_nil (ws : List (List Char)) (h : ws ≠ []) : buildFreq ws ≠ [] := by
  cases ws with
  | nil => exact absurd rfl h
  | cons w ws =>
    rw [buildFreq, List.foldl_cons]
    exact foldl_bump_ne_nil ws (bump [] w) (bump_ne_nil [] w)

theorem bump_snd_pos (m : List (List Char × Nat)) (w : List Char)
    (hm : ∀ p ∈ m, 1 ≤ p.2) : ∀ p ∈ bump m w, 1 ≤ p.2 := by
  induction m with
  | nil =>
    intro p hp
    simp only [bump, List.mem_singleton] at hp
    subst hp
    exact le_refl 1
  | cons q rest ih =>
    obtain ⟨k, v⟩ := q
    intro p hp
    simp only [bump] at hp
    split at hp
    · rcases List.mem_cons.mp hp with heq | hmem
      · subst heq; have := hm (k, v) (List.mem_cons_self _ _); omega
      · exact hm p (List.mem_cons_of_mem _ hmem)
    · rcases List.mem_cons.mp hp with heq | hmem
      · subst heq; exact hm (k, v) (List.mem_cons_self _ _)
      · exact ih (fun q hq => hm q (List.mem_cons_of_mem _ hq)) p hmem

theorem foldl_bump_snd_pos (ws : List (List Char)) (m : List (List Char × Nat))
    (hm : ∀ p ∈ m, 1 ≤ p.2) : ∀ p ∈ ws.foldl bump m, 1 ≤ p.2 := by
  induction ws generalizing m with
  | nil => simpa using hm
  | cons w ws ih => exact ih (bump m w) (bump_snd_pos m w hm)

theorem buildFreq_snd_pos (ws : List (List Char)) : ∀ p ∈ buildFreq ws, 1 ≤ p.2 :=
  foldl_bump_snd_pos ws [] (by simp)

theorem foldl_add_eq_sum (l : List ℚ) : ∀ a : ℚ, l.foldl (· + ·) a = a + l.sum := by
  induction l with
  | nil => intro a; simp
  | cons x xs ih =>
    intro a
    rw [List.foldl_cons, ih (a + x), List.sum_cons]
    ring

theorem sum_map_div (l : List ℚ) (s : ℚ) :
    (l.map (fun v => v / s)).sum = l.sum / s := by
  induction l with
  | nil => simp
  | cons x xs ih => simp [ih, add_div]

theorem freqValues_sum_pos (ws : List (List Char)) (h : ws ≠ []) :
    0 < ((buildFreq ws).map (fun p => (p.2 : ℚ))).sum := by
  cases hf : buildFreq ws with
  | nil => exact absurd hf (buildFreq_ne_nil ws h)
  | cons p rest =>
    have hp : 1 ≤ p.2 := buildFreq_snd_pos ws p (hf ▸ List.mem_cons_self _ _)
    have hrest : 0 ≤ (rest.map (fun p => (p.2 : ℚ))).sum := by
      apply List.sum_nonneg
      intro x hx
      simp only [List.mem_map] at hx
      obtain ⟨q, _, rfl⟩ := hx
      positivity
    have hp' : (1 : ℚ) ≤ (p.2 : ℚ) := by exact_mod_cast hp
    simp only [List.map_cons, List.sum_cons]
    linarith

theorem generateSimpleEmbeddingD_some (d : Nat) (text : List Char) (v : List ℚ)
    (h : generateSimpleEmbeddingD d text = some v) :
    v.length = d ∧ (∀ x ∈ v, 0 ≤ x) ∧ v.sum = 1 := by
  have hws : splitNonWord (jsToLower text) ≠ [] := splitNonWord_ne_nil _
  have hsum0 := freqValues_sum_pos (splitNonWord (jsToLower text)) hws
  rw [generateSimpleEmbeddingD] at h
  set values := (buildFreq (splitNonWord (jsToLower text))).map
      (fun p => (p.2 : ℚ)) with hvalues
  set s : ℚ := values.foldl (· + ·) 0 with hs
  have hssum : s = values.sum := by rw [hs, foldl_add_eq_sum, zero_add]
  have hspos : 0 < s := by rw [hssum]; exact hsum0
  have hvnonneg : ∀ y ∈ values, 0 ≤ y := by
    intro y hy
    rw [hvalues] at hy
    obtain ⟨q, _, rfl⟩ := List.mem_map.mp hy
    positivity
  split at h
  case isFalse => exact absurd h (by simp)
  case isTrue hlen =>
    simp only [Option.some.injEq] at h
    subst h
    rw [List.length_map] at hlen
    have hlength :
        (values.map (fun x => x / s) ++
          List.replicate (d - (values.map (fun x => x / s)).length) (0 : ℚ)).length = d := by
      simp only [List.length_append, List.length_replicate, List.length_map]
      omega
    rw [List.take_of_length_le (le_of_eq hlength)]
    refine ⟨hlength, ?_, ?_⟩
    · intro x hx
      rcases List.mem_append.mp hx with hx | hx
      · obtain ⟨y, hy, rfl⟩ := List.mem_map.mp hx
        exact div_nonneg (hvnonneg y hy) (le_of_lt hspos)
      · simp only [List.mem_replicate] at hx
        exact le_of_eq hx.2.symm
    · rw [List.sum_append, List.sum_replicate, smul_zero, add_zero, sum_map_div,
        ← hssum, div_self (ne_of_gt hspos)]

theorem generateSimpleEmbedding_empty_eval :
    generateSimpleEmbedding [] = some ((1 : ℚ) :: List.replicate 3071 0) := by
  rw [generateSimpleEmbedding, generateSimpleEmbeddingD]
  simp only [show buildFreq (splitNonWord (jsToLower [])) = [([], 1)] from rfl,
    List.map_cons, List.map_nil, List.foldl_cons, List.foldl_nil, Nat.cast_one,
    zero_add, div_one, List.length_cons, List.length_nil, List.singleton_append]
  rw [if_pos (by norm_num [dimension])]
  rw [show dimension - 1 = 3071 from rfl]
  rw [List.take_of_length_le
    (by rw [List.length_cons, List.length_replicate]; norm_num [dimension])]

theorem generateSimpleEmbeddingD_isSome (d : Nat) (text : List Char)
    (h : (buildFreq (splitNonWord (jsToLower text))).length ≤ d) :
    ∃ v, generateSimpleEmbeddingD d text = some v := by
  rw [generateSimpleEmbeddingD]
  rw [if_pos (by simp only [List.length_map]; omega)]
  exact ⟨_, rfl⟩

theorem addChunksLoop_mem (state : List LocalChunk) (chunks : List CodeChunk) :
    ∀ c ∈ (addChunksLoop state chunks).1, c ∈ state ∨
      ∃ ch v, c = ⟨ch, some v⟩ ∧ generateSimpleEmbedding ch.content = some v := by
  induction chunks generalizing state with
  | nil =>
    intro c hc
    exact Or.inl hc
  | cons ch cs ih =>
    intro c hc
    rw [addChunksLoop] at hc
    cases hgen : generateSimpleEmbedding ch.content with
    | none =>
      rw [hgen] at hc
      exact Or.inl hc
    | some e =>
      rw [hgen] at hc
      rcases ih (state ++ [⟨ch, some e⟩]) c hc with hmem | hex
      · rcases List.mem_append.mp hmem with h1 | h2
        · exact Or.inl h1
        · simp only [List.mem_singleton] at h2
          exact Or.inr ⟨ch, e, h2, hgen⟩
      · exact Or.inr hex

theorem addToIndex_mem (state : List LocalChunk) (file : CodeFile) :
    ∀ c ∈ (addToIndex state file).1, c ∈ state ∨
      ∃ ch v, c = ⟨ch, some v⟩ ∧ generateSimpleEmbedding ch.content = some v := by
  intro c hc
  rw [addToIndex] at hc
  cases hloop : addChunksLoop state (splitIntoChunks file.content file.id) with
  | mk s1 ok =>
    rw [hloop] at hc
    cases ok with
    | true =>
      exact addChunksLoop_mem state (splitIntoChunks file.content file.id) c
        (by rw [hloop]; exact hc)
    | false =>
      rcases addChunksLoop_mem s1 (splitIntoChunks file.content file.id) c hc
        with hmem | hex
      · exact addChunksLoop_mem state (splitIntoChunks file.content file.id) c
          (by rw [hloop]; exact hmem)
      · exact Or.inr hex

/-- Claim C5 (counterexample): `generateSimpleEmbedding` on the empty string
does NOT return the all-zero vector: JS `"".split(/\W+/)` is `[""]`, so the
frequency map holds one token with count 1 and the normalized vector starts
with 1. -/
theorem generateSimpleEmbedding_empty_not_allZero :
    generateSimpleEmbedding [] ≠ some (List.replicate dimension (0 : ℚ)) := by
  rw [generateSimpleEmbedding_empty_eval, show (dimension : Nat) = 3071 + 1 from rfl]
  nth_rewrite 2 [List.replicate_succ]
  simp only [ne_eq, Option.some.injEq, List.cons.injEq, not_and]
  intro h
  exact absurd h one_ne_zero

/-- Claim C5 (amended): on the empty string `generateSimpleEmbedding`
returns the vector of dimension 3072 whose first entry is 1 (the normalized
frequency of the single empty token) and whose remaining 3071 entries are
zero padding. -/
theorem generateSimpleEmbedding_empty_vec :
    generateSimpleEmbedding [] = some ((1 : ℚ) :: List.replicate (dimension - 1) 0) :=
  generateSimpleEmbedding_empty_eval

/-- Claim C3: for any dimension `d`, a text with more than `d` distinct
lower-cased tokens makes `generateSimpleEmbedding` fail — JS evaluates
`Array(d - normalized.length)` with a negative argument and throws a
`RangeError` (modelled as `none`), so the `.slice(0, d)` truncation never
runs.  In particular, at the service dimension `d = 3072`, a text with 3073
distinct tokens throws instead of being truncated. -/
theorem generateSimpleEmbeddingD_overflow (d : Nat) (text : List Char)
    (h : d < (buildFreq (splitNonWord (jsToLower text))).length) :
    generateSimpleEmbeddingD d text = none := by
  rw [generateSimpleEmbeddingD]
  rw [if_neg (by simp only [List.length_map]; omega)]

/-- Witness for C3 at `d = 1` and the two-token text `"a b"`. -/
theorem generateSimpleEmbeddingD_overflow_witness :
    generateSimpleEmbeddingD 1 ['a', ' ', 'b'] = none :=
  generateSimpleEmbeddingD_overflow 1 ['a', ' ', 'b'] (by decide)

/-- Claim C10: for a non-empty text whose distinct lower-cased token count
is at most 3072, `generateSimpleEmbedding` succeeds and its vector has
non-negative entries summing to exactly 1; consequently `addToIndex` (local
path) only ever stores embeddings with that property, given a store that
already satisfies it. -/
theorem generateSimpleEmbedding_stochastic :
    (∀ text : List Char, text ≠ [] →
      (buildFreq (splitNonWord (jsToLower text))).length ≤ dimension →
      ∃ v, generateSimpleEmbedding text = some v ∧
        (∀ x ∈ v, 0 ≤ x) ∧ v.sum = 1) ∧
    (∀ (state : List LocalChunk) (file : CodeFile),
      (∀ c ∈ state, ∀ e, c.embedding = some e →
        (∀ x ∈ e, 0 ≤ x) ∧ e.sum = 1) →
      (∀ ch ∈ splitIntoChunks file.content file.id, ch.content ≠ [] ∧
        (buildFreq (splitNonWord (jsToLower ch.content))).length ≤ dimension) →
      ∀ c ∈ (addToIndex state file).1, ∀ e, c.embedding = some e →
        (∀ x ∈ e, 0 ≤ x) ∧ e.sum = 1) := by
  constructor
  · intro text _ hd
    obtain ⟨v, hv⟩ := generateSimpleEmbeddingD_isSome dimension text hd
    exact ⟨v, hv, (generateSimpleEmbeddingD_some dimension text v hv).2⟩
  · intro state file hstate _ c hc e he
    rcases addToIndex_mem state file c hc with hmem | ⟨ch, v, rfl, hgen⟩
    · exact hstate c hmem e he
    · simp only [Option.some.injEq] at he
      rw [← he]
      exact (generateSimpleEmbeddingD_some dimension ch.content v hgen).2

/-- Witness for C10 at the one-character text `"a"`. -/
theorem generateSimpleEmbedding_stochastic_witness :
    ∃ v, generateSimpleEmbedding ['a'] = some v ∧
      (∀ x ∈ v, 0 ≤ x) ∧ v.sum = 1 :=
  generateSimpleEmbedding_stochastic.1 ['a'] (by decide) (by decide)

theorem zip_replicate_zero_dot (v : List ℝ) :
    ((v.zip (List.replicate v.length 0)).map (fun p => p.1 * p.2)).sum = 0 := by
  induction v with
  | nil => simp
  | cons x xs ih => simpa [List.replicate_succ] using ih

theorem zip_replicate_zero_normSq (v : List ℝ) :
    ((v.zip (List.replicate v.length (0 : ℝ))).map (fun p => p.2 * p.2)).sum = 0 := by
  induction v with
  | nil => simp
  | cons x xs ih => simpa [List.replicate_succ] using ih

theorem calculateSimilarityV2_zeroDenominator (v : List ℝ) :
    calculateSimilarityV2 v (List.replicate v.length 0) = none := by
  rw [calculateSimilarityV2, zip_replicate_zero_normSq, Real.sqrt_zero, mul_zero,
    if_pos rfl]

/-- Claim C2 (counterexample): the variant at embeddings.ts:303-315 has no
`|| 1` guard, so against the all-zero vector of dimension 3072 the
denominator `sqrt(norm1) * sqrt(0)` is 0 and JS divides by zero — a
non-finite result (`0 / 0 = NaN` here, modelled as `none`), not 0.
Concretely at the unit vector `e₀` of dimension 3072. -/
theorem calculateSimilarityV2_zero_nonfinite :
    calculateSimilarityV2 ((1 : ℝ) :: List.replicate 3071 0)
      (List.replicate 3072 0) = none := by
  have h := calculateSimilarityV2_zeroDenominator ((1 : ℝ) :: List.replicate 3071 0)
  rw [show ((1 : ℝ) :: List.replicate 3071 0).length = 3072 by
    rw [List.length_cons, List.length_replicate]] at h
  exact h

/-- Claim C2 (amended): for the guarded variant of `calculateSimilarity`
(embeddings.ts:86-98), the similarity of any vector `v` against the
all-zero vector of the same dimension is exactly 0 — the result is a
well-defined real number (never NaN/Infinity and no exception), because
the zero denominator is floored at 1.  The unguarded variant at
embeddings.ts:303-315 instead yields a non-finite result. -/
theorem calculateSimilarity_zero_vector (v : List ℝ) :
    calculateSimilarity v (List.replicate v.length 0) = 0 := by
  rw [calculateSimilarity, zip_replicate_zero_dot, zero_div]

theorem tokenSet_card_pos (t : List Char) : 0 < (tokenSet t).card := by
  rw [tokenSet, Finset.card_pos]
  cases h : splitNonWord (jsToLower t) with
  | nil => exact absurd h (splitNonWord_ne_nil _)
  | cons w ws => exact ⟨w, by simp [h]⟩

theorem overlapScore_formula (A B : Finset (List Char))
    (hA : 0 < A.card) (hB : 0 < B.card) :
    overlapScore A B =
      ((A ∩ B).card : ℝ) / Real.sqrt ((A.card : ℝ) * (B.card : ℝ)) := by
  rw [overlapScore, if_neg (by omega), Finset.filter_mem_eq_inter]

/-- Claim C8: the set-overlap `calculateSimilarity` of variant 3 equals
`|A ∩ B| / sqrt(|A| * |B|)` over the sets of distinct lower-cased tokens,
is symmetric, lies in [0, 1], and its guard returns 0 whenever either
token set is empty (for actual texts the token set is never empty, since
JS `split` always returns at least one element). -/
theorem calculateSimilarityText_overlap (a b : List Char) :
    calculateSimilarityText a b =
      ((tokenSet a ∩ tokenSet b).card : ℝ) /
        Real.sqrt (((tokenSet a).card : ℝ) * ((tokenSet b).card : ℝ)) ∧
    calculateSimilarityText a b = calculateSimilarityText b a ∧
    0 ≤ calculateSimilarityText a b ∧ calculateSimilarityText a b ≤ 1 ∧
    (∀ w1 w2 : Finset (List Char), w1.card = 0 ∨ w2.card = 0 →
      overlapScore w1 w2 = 0) := by
  have hA := tokenSet_card_pos a
  have hB := tokenSet_card_pos b
  have hform := overlapScore_formula (tokenSet a) (tokenSet b) hA hB
  have hguard : ∀ w1 w2 : Finset (List Char), w1.card = 0 ∨ w2.card = 0 →
      overlapScore w1 w2 = 0 := by
    intro w1 w2 h
    rw [overlapScore, if_pos h]
  refine ⟨hform, ?_, ?_, ?_, hguard⟩
  · rw [calculateSimilarityText, calculateSimilarityText,
      overlapScore_formula _ _ hA hB, overlapScore_formula _ _ hB hA,
      Finset.inter_comm, mul_comm]
  · rw [calculateSimilarityText, hform]
    positivity
  · rw [calculateSimilarityText, hform]
    have hsqrtpos : 0 < Real.sqrt (((tokenSet a).card : ℝ) * ((tokenSet b).card : ℝ)) := by
      apply Real.sqrt_pos.mpr
      positivity
    rw [div_le_one hsqrtpos]
    apply Real.le_sqrt_of_sq_le
    have h1 : (tokenSet a ∩ tokenSet b).card ≤ (tokenSet a).card :=
      Finset.card_le_card (Finset.inter_subset_left)
    have h2 : (tokenSet a ∩ tokenSet b).card ≤ (tokenSet b).card :=
      Finset.card_le_card (Finset.inter_subset_right)
    have h1' : ((tokenSet a ∩ tokenSet b).card : ℝ) ≤ ((tokenSet a).card : ℝ) := by
      exact_mod_cast h1
    have h2' : ((tokenSet a ∩ tokenSet b).card : ℝ) ≤ ((tokenSet b).card : ℝ) := by
      exact_mod_cast h2
    have hnn : (0 : ℝ) ≤ ((tokenSet a ∩ tokenSet b).card : ℝ) := by positivity
    nlinarith

/-- Witness for C8's guard clause at two concrete empty finsets. -/
theorem calculateSimilarityText_overlap_witness :
    overlapScore ∅ ∅ = 0 :=
  (calculateSimilarityText_overlap [] []).2.2.2.2 ∅ ∅ (Or.inl (by simp))

theorem bySimilarityDesc_trans : ∀ a b c : LocalChunk × ℝ,
    bySimilarityDesc a b → bySimilarityDesc b c → bySimilarityDesc a c := by
  intro a b c hab hbc
  simp only [bySimilarityDesc, decide_eq_true_eq] at hab hbc ⊢
  exact le_trans hbc hab

theorem bySimilarityDesc_total : ∀ a b : LocalChunk × ℝ,
    bySimilarityDesc a b || bySimilarityDesc b a := by
  intro a b
  simp only [bySimilarityDesc, Bool.or_eq_true, decide_eq_true_eq]
  exact le_total b.2 a.2

/-- Claim C6: in the local path, `findSimilarCode` returns at most `k`
results sorted in descending order of similarity, and repeated calls with
the same query and `k` on an unchanged store return the same list (the
result is a pure function of the store, query and `k`; JS `Array.sort` and
`List.mergeSort` are both stable, so ties break identically). -/
theorem findSimilarCode_topK (state : List LocalChunk) (query : List Char) (k : Nat) :
    (findSimilarCode state query k).length ≤ k ∧
    (findSimilarCode state query k).Pairwise
      (fun a b => b.similarity ≤ a.similarity) ∧
    findSimilarCode state query k = findSimilarCode state query k := by
  refine ⟨?_, ?_, rfl⟩
  · rw [findSimilarCode]
    cases hgen : generateSimpleEmbedding query with
    | none => simp
    | some qe =>
      simp only [List.length_map, List.length_take]
      exact min_le_left _ _
  · rw [findSimilarCode]
    cases hgen : generateSimpleEmbedding query with
    | none => simp
    | some qe =>
      simp only
      refine List.Pairwise.map _ ?_
        (List.Pairwise.sublist (List.take_sublist _ _)
          (List.sorted_mergeSort bySimilarityDesc_trans bySimilarityDesc_total _))
      intro p q hpq
      simpa [bySimilarityDesc] using hpq

/-- Claim C7: `clear()` empties the local chunk list on both its paths
(remote delete-all succeeding or throwing), so a subsequent local
`findSimilarCode` — with any query and any `k`, in particular
`findSimilarCode("anything", 5)` — returns the empty list. -/
theorem clear_findSimilarCode_empty (state : List LocalChunk) (b : Bool)
    (query : List Char) (k : Nat) :
    clear state b = [] ∧ findSimilarCode (clear state b) query k = [] := by
  have hclear : clear state b = [] := by
    rw [clear]
    cases b <;> rfl
  refine ⟨hclear, ?_⟩
  rw [hclear, findSimilarCode]
  cases hgen : generateSimpleEmbedding query with
  | none => rfl
  | some qe => simp

theorem addChunksLoop_append (state : List LocalChunk) (chunks : List CodeChunk) :
    ∃ rest, (addChunksLoop state chunks).1 = state ++ rest := by
  induction chunks generalizing state with
  | nil => exact ⟨[], by simp [addChunksLoop]⟩
  | cons ch cs ih =>
    rw [addChunksLoop]
    cases hgen : generateSimpleEmbedding ch.content with
    | none => exact ⟨[], by simp⟩
    | some e =>
      obtain ⟨rest, hrest⟩ := ih (state ++ [⟨ch, some e⟩])
      exact ⟨⟨ch, some e⟩ :: rest, by rw [hrest]; simp⟩

theorem addChunksLoop_success (state : List LocalChunk) (chunks : List CodeChunk)
    (h : ∀ ch ∈ chunks, (generateSimpleEmbedding ch.content).isSome) :
    addChunksLoop state chunks =
      (state ++ chunks.map (fun ch => ⟨ch, generateSimpleEmbedding ch.content⟩),
        true) := by
  induction chunks generalizing state with
  | nil => simp [addChunksLoop]
  | cons ch cs ih =>
    rw [addChunksLoop]
    cases hgen : generateSimpleEmbedding ch.content with
    | none =>
      have := h ch (List.mem_cons_self _ _)
      rw [hgen] at this
      simp at this
    | some e =>
      show addChunksLoop
          (state ++ [({ chunk := ch, embedding := some e } : LocalChunk)]) cs = _
      rw [ih (state ++ [({ chunk := ch, embedding := some e } : LocalChunk)])
        (fun c hc => h c (List.mem_cons_of_mem _ hc))]
      simp [hgen]

/-- Claim C9: `addToIndex` in the local path only appends to the in-memory
store: the prior store is always preserved unchanged, in order, as a prefix
of the new store (so re-adding an updated file never retracts or replaces
previously indexed chunks); when every chunk of the file embeds without
error the new store is exactly the old store followed by the file's chunks
paired with their embeddings; and `clear` is the operation that empties the
store. -/
theorem addToIndex_appendOnly :
    (∀ (state : List LocalChunk) (file : CodeFile),
      ∃ rest, (addToIndex state file).1 = state ++ rest) ∧
    (∀ (state : List LocalChunk) (file : CodeFile),
      (∀ ch ∈ splitIntoChunks file.content file.id,
        (generateSimpleEmbedding ch.content).isSome) →
      (addToIndex state file).1 = state ++
        (splitIntoChunks file.content file.id).map
          (fun ch => ⟨ch, generateSimpleEmbedding ch.content⟩)) ∧
    (∀ (state : List LocalChunk) (b : Bool), clear state b = []) := by
  refine ⟨?_, ?_, ?_⟩
  · intro state file
    rw [addToIndex]
    cases hloop : addChunksLoop state (splitIntoChunks file.content file.id) with
    | mk s1 ok =>
      have h1 : s1 = (addChunksLoop state (splitIntoChunks file.content file.id)).1 := by
        rw [hloop]
      cases ok with
      | true =>
        obtain ⟨rest, hrest⟩ :=
          addChunksLoop_append state (splitIntoChunks file.content file.id)
        exact ⟨rest, by simp only; rw [h1, hrest]⟩
      | false =>
        obtain ⟨rest1, hrest1⟩ :=
          addChunksLoop_append state (splitIntoChunks file.content file.id)
        obtain ⟨rest2, hrest2⟩ :=
          addChunksLoop_append s1 (splitIntoChunks file.content file.id)
        refine ⟨rest1 ++ rest2, ?_⟩
        simp only
        rw [hrest2, h1, hrest1, List.append_assoc]
  · intro state file h
    rw [addToIndex, addChunksLoop_success state _ h]
  · intro state b
    rw [clear]
    cases b <;> rfl

/-- Witness for C9's success case: adding the one-line file `"a"` (id 1) to
an empty store appends exactly its single chunk with its embedding. -/
theorem addToIndex_appendOnly_witness :
    (addToIndex [] ⟨1, ['a']⟩).1 = [] ++
      (splitIntoChunks ['a'] 1).map
        (fun ch => ⟨ch, generateSimpleEmbedding ch.content⟩) :=
  addToIndex_appendOnly.2.1 [] ⟨1, ['a']⟩ (by
    rw [show splitIntoChunks ['a'] 1 =
        [{ fileId := 1, content := ['a'], startLine := 1, endLine := 1 }] from by
      rw [splitIntoChunks, show jsSplit '\n' ['a'] = [['a']] from rfl,
        chunkFrom, if_pos (by decide), chunkFrom, if_neg (by decide)]
      decide]
    intro ch hch
    simp only [List.mem_singleton] at hch
    subst hch
    decide)
